import Mathlib

/-!
Verification of the distance/search core of tsshapelet.

Shallow embedding of `src/tsshapelet/metrics.py` (the DTW and Euclidean
kernels) and `src/tsshapelet/comparator.py` (the sequential and parallel
search algorithms).

Number representation.  Every distance-like float that flows through the
source is either the float `inf` or the square root of a nonnegative
rational (all inputs are modelled as rationals; costs are sums of squares;
the kernels take a square root exactly once, at the end).  We therefore
represent such a float by `Option ℚ`: `none` stands for `inf`, and a finite
representative `some q` stands for the real number `√q`.  Since `√` is
strictly monotone on nonnegative reals, the float order on the represented
values is exactly the order `olt`/`ole` on representatives; squaring
(`r**2`) and square root (`c**0.5`) are the identity map between the
"plain squared-cost" space (`Cost`) and the "√-represented distance" space
(`DVal`).  The one place the source compares a plain running sum against a
√-represented bound (`euclidean_distance`'s `dist > r`) is modelled by
`ratGtDist`, using `d > √ρ ↔ 0 ≤ d ∧ ρ < d²`.

Python `None` is modelled by an outer `Option` (a kernel that falls
through without returning yields `none`); raised exceptions are modelled
by `Except PyErr`.  `lru_cache`/`numba.njit`/tuple round-trips are
semantically transparent and not modelled.  `print` warnings are not
modelled.  `os.cpu_count()` is lifted to an explicit `maxCores` parameter.
-/

set_option maxHeartbeats 1000000

/-- Exception kinds actually raised by the modelled code paths. -/
inductive PyErr
  | typeError
  | valueError
  | zeroDivisionError
deriving DecidableEq, Repr

/-- The metric registry keys: `metrics = {'euclidean': ed, 'dtw': dtw}`. -/
inductive Metric
  | dtw
  | euclidean
deriving DecidableEq, Repr

/-- Equality of `Except` results is decidable (used to evaluate concrete
runs). -/
instance {ε α : Type} [DecidableEq ε] [DecidableEq α] : DecidableEq (Except ε α) :=
  fun a b =>
  match a, b with
  | .error e, .error f =>
    if h : e = f then .isTrue (congrArg Except.error h)
    else .isFalse (fun hc => h (Except.error.inj hc))
  | .error _, .ok _ => .isFalse (fun hc => Except.noConfusion hc)
  | .ok _, .error _ => .isFalse (fun hc => Except.noConfusion hc)
  | .ok x, .ok y =>
    if h : x = y then .isTrue (congrArg Except.ok h)
    else .isFalse (fun hc => h (Except.ok.inj hc))

/-- A distance-valued float, in √-representation: `none` is `inf`, `some q`
stands for the real `√q`. -/
abbrev DVal := Option ℚ

/-- A squared-cost float (cost-matrix cell or running squared sum): `none`
is `inf`, `some q` stands for the real `q` itself. -/
abbrev Cost := Option ℚ

/-- The float `inf`. -/
def pyInf : Option ℚ := none

/-- The strict float order `<` on represented values (`inf` is the top;
finite values compare by representative, since `√` is monotone). -/
def olt : Option ℚ → Option ℚ → Prop
  | none, none => False
  | none, some _ => False
  | some _, none => True
  | some p, some q => p < q

instance : ∀ a b : Option ℚ, Decidable (olt a b)
  | none, none => .isFalse id
  | none, some _ => .isFalse id
  | some _, none => .isTrue trivial
  | some p, some q => inferInstanceAs (Decidable (p < q))

/-- The float order `≤` on represented values. -/
def ole : Option ℚ → Option ℚ → Prop
  | none, none => True
  | none, some _ => False
  | some _, none => True
  | some p, some q => p ≤ q

instance : ∀ a b : Option ℚ, Decidable (ole a b)
  | none, none => .isTrue trivial
  | none, some _ => .isFalse id
  | some _, none => .isTrue trivial
  | some p, some q => inferInstanceAs (Decidable (p ≤ q))

/-- Python/numpy `min` of two float values (`inf` is the identity). -/
def omin : Option ℚ → Option ℚ → Option ℚ
  | none, b => b
  | some p, none => some p
  | some p, some q => some (min p q)

/-- Float addition (`inf` absorbs). -/
def oadd : Option ℚ → Option ℚ → Option ℚ
  | some p, some q => some (p + q)
  | _, _ => none

/-- Python `int(q)`: truncation toward zero (`Int.tdiv` of numerator by
denominator).  Agrees with `⌊q⌋` for `0 ≤ q`. -/
def pyInt (q : ℚ) : ℤ := Int.tdiv q.num q.den

/-- `r**2` on a √-represented float: the identity on representatives. -/
def pySq (r : DVal) : Cost := r

/-- `c**0.5` from squared-cost space into √-representation: the identity on
representatives (`√inf = inf`). -/
def pySqrt (c : Cost) : DVal := c

/-- The comparison `dist > r` in `euclidean_distance`, where `dist` is the
plain running squared sum `d : ℚ` and `r` is a √-represented bound:
`d > √ρ ↔ 0 ≤ d ∧ ρ < d²`, and `d > inf` is false. -/
def ratGtDist (d : ℚ) : DVal → Prop
  | none => False
  | some ρ => ρ < d ^ 2 ∧ 0 ≤ d

instance : ∀ (d : ℚ) (r : DVal), Decidable (ratGtDist d r)
  | _, none => .isFalse id
  | d, some ρ => inferInstanceAs (Decidable (ρ < d ^ 2 ∧ 0 ≤ d))

/-- `Σ (a-b)²` over a list of pairs. -/
def sumSqPairs (ps : List (ℚ × ℚ)) : ℚ := (ps.map (fun p => (p.1 - p.2) ^ 2)).sum

/-- `np.linalg.norm(I-J)²`, i.e. the full squared Euclidean sum (for
equal-length inputs). -/
def sumSqDiff (I J : List ℚ) : ℚ := sumSqPairs (I.zip J)

/-- The `for i in range(len(I))` accumulation loop of `euclidean_distance`
when `r < inf`: add `(I[i]-J[i])²`, return `dist**0.5` as soon as
`dist > r`, and fall through (Python returns `None`) if the loop ends
without the guard firing.  The source indexes `J` by the positions of `I`;
`zip` models this for `len I ≤ len J` (all claims use equal lengths). -/
def euclidLoop : List (ℚ × ℚ) → ℚ → DVal → Option DVal
  | [], _, _ => none
  | p :: rest, dist, r =>
    let d := dist + (p.1 - p.2) ^ 2
    if ratGtDist d r then some (some d) else euclidLoop rest d r

/-- `euclidean_distance(I, J, r)` from metrics.py: early-abandon loop when
`r < inf` (which can fall through to `None`), otherwise the exact norm. -/
def euclidean_distance (I J : List ℚ) (r : DVal) : Option DVal :=
  if olt r pyInf then euclidLoop (I.zip J) 0 r
  else some (some (sumSqDiff I J))

/-- Python `l[::k]` for a positive stride `k`: elements at indices `0, k,
2k, …`. -/
def pyStride (l : List ℚ) (k : ℕ) : List ℚ :=
  (l.enum.filter (fun p => p.1 % k == 0)).map Prod.snd

/-- Python `l[::s]` for a nonzero integer stride: positive strides walk
forward, negative strides walk the reversed list with stride `|s|`. -/
def pySliceStep (l : List ℚ) (s : ℤ) : List ℚ :=
  if 0 < s then pyStride l s.toNat else pyStride l.reverse (-s).toNat

/-- `ed_cached(I, J, r, w)` from metrics.py.  For `w ≤ 0.5` it decimates
both inputs by stride `int(1/w)` (the inner `ValueError` guard
`1 < w < 0` can never hold; `int(1/w)` raises `ZeroDivisionError` at
`w = 0`; a zero slice step raises `ValueError`), then calls
`euclidean_distance`. -/
def ed_cached (I J : List ℚ) (r : DVal) (w : ℚ) : Except PyErr (Option DVal) :=
  if w ≤ 1 / 2 then
    if 1 < w ∧ w < 0 then .error .valueError
    else if w ≠ 1 ∧ w = 0 then .error .zeroDivisionError
    else
      let step : ℤ := if w ≠ 1 then pyInt (1 / w) else 1
      if step = 0 then .error .valueError
      else .ok (euclidean_distance (pySliceStep I step) (pySliceStep J step) r)
  else .ok (euclidean_distance I J r)

/-- `ed(I, J, r, w)`: tuple conversion and the lru cache are semantically
transparent, so this is `ed_cached`. -/
def ed (I J : List ℚ) (r : DVal) (w : ℚ) : Except PyErr (Option DVal) := ed_cached I J r w

/-- Row 0 of the DTW cost matrix: `cum_sum[0,0] = 0`, the rest of the row
keeps its `inf` initialization. -/
def row0 : ℕ → Cost := fun j => if j = 0 then some 0 else none

/-- One row of the DTW cost matrix.  `prev` is the previous row; the cell at
column `j` (for `lo ≤ j ≤ hi`, the Sakoe–Chiba band of this row) is
`(a - J[j-1])² + min(prev[j], cur[j-1], prev[j-1])`; every other cell keeps
its `inf` initialization (column 0 included). -/
def rowCell (prev : ℕ → Cost) (a : ℚ) (J : List ℚ) (lo hi : ℤ) : ℕ → Cost
  | 0 => none
  | j + 1 =>
    if lo ≤ (j + 1 : ℤ) ∧ (j + 1 : ℤ) ≤ hi then
      oadd (some ((a - J.getD j 0) ^ 2))
        (omin (omin (prev (j + 1)) (rowCell prev a J lo hi j)) (prev j))
    else none

/-- `cum_sum[i,:].min()`: minimum of a row over columns `0..j`. -/
def rowMin (row : ℕ → Cost) : ℕ → Cost
  | 0 => row 0
  | j + 1 => omin (rowMin row j) (row (j + 1))

/-- `max(1, i - w)` of the source's inner loop. -/
def bandLo (i : ℕ) (W : ℤ) : ℤ := max 1 ((i : ℤ) - W)

/-- `min(m, i + w)` of the source's inner loop. -/
def bandHi (m i : ℕ) (W : ℤ) : ℤ := min (m : ℤ) ((i : ℤ) + W)

/-- Compute row `i+1` of the cost matrix from row `i` and `a = I[i]`. -/
def nextRow (J : List ℚ) (W : ℤ) (m : ℕ) (row : ℕ → Cost) (i : ℕ) (a : ℚ) : ℕ → Cost :=
  rowCell row a J (bandLo (i + 1) W) (bandHi m (i + 1) W)

/-- The row loop of `dtw_matrix`, returning the final cell
`cum_sum[n, m]` of the matrix the source returns.  After each computed row
the source early-abandons (returns the incomplete matrix) when
`cum_sum[i,:].min() > r²`; if rows remain unprocessed the final cell still
holds its `inf` initialization. -/
def dtwLoop (J : List ℚ) (W : ℤ) (m : ℕ) (rsq : Cost) : List ℚ → ℕ → (ℕ → Cost) → Cost
  | [], _, row => row m
  | a :: rest, i, row =>
    let nr := nextRow J W m row i a
    if olt rsq (rowMin nr m) then (if rest.isEmpty then nr m else none)
    else dtwLoop J W m rsq rest (i + 1) nr

/-- `w = int(max([n, m]) * w)` of `dtw_matrix`. -/
def bandWidth (n m : ℕ) (w : ℚ) : ℤ := pyInt ((max n m : ℚ) * w)

/-- `dtw_matrix(I, J, w, r)[-1, -1]`: the final cell of the (possibly
abandoned) cost matrix. -/
def dtw_matrix_last (I J : List ℚ) (w : ℚ) (r : DVal) : Cost :=
  dtwLoop J (bandWidth I.length J.length w) J.length (pySq r) I 0 row0

/-- `dtw(I, J, w, r) = dtw_matrix(...)[-1, -1] ** 0.5` (via `dtw_cached`;
the cache and tuple conversion are semantically transparent). -/
def dtw (I J : List ℚ) (w : ℚ) (r : DVal) : DVal := pySqrt (dtw_matrix_last I J w r)

/-- The abandon-free sequence of cost-matrix rows: `rows … i` is row `i` as
`dtw_matrix` computes it (the early abandon only cuts the loop short, it
never changes an already-computed row). -/
def rows (I J : List ℚ) (W : ℤ) (m : ℕ) : ℕ → ℕ → Cost
  | 0 => row0
  | i + 1 => nextRow J W m (rows I J W m i) i (I.getD i 0)

/-- `find_pool_size(parallel_cores)` from comparator.py, with
`os.cpu_count()` lifted to the `maxCores` parameter.  The `print` warnings
are not modelled. -/
def find_pool_size (maxCores pc : ℤ) : ℤ :=
  if pc > maxCores then max 1 (maxCores - 1)
  else if pc < 0 then 1 else pc

/-- A keyword-style metric call `metrics[metric](q, c, w = w, r = r)` as
made by `sequential_query`; with `r = inf` it is also the call
`metrics[metric](q, c, w = w)` made by `sequential_score`. -/
def callMetricKw (m : Metric) (q c : List ℚ) (w : ℚ) (r : DVal) : Except PyErr (Option DVal) :=
  match m with
  | .dtw => .ok (some (dtw q c w r))
  | .euclidean => ed q c r w

/-- The plain float `w` viewed in √-representation (`w = √(w²)`); faithful
for `0 ≤ w`. -/
def ofRatDist (w : ℚ) : DVal := some (w ^ 2)

/-- `query_worker((q, c, w, metric))`: the positional call
`metrics[metric](q, c, w)`.  For `dtw` the third positional argument is the
window; for `ed` it is the early-abandon bound `r` (and `ed`'s window
defaults to 1): the worker passes the window as the bound. -/
def query_worker (q c : List ℚ) (w : ℚ) (m : Metric) : Except PyErr (Option DVal) :=
  match m with
  | .dtw => .ok (some (dtw q c w pyInf))
  | .euclidean => ed q c (ofRatDist w) 1

/-- `pool.map(f, args)`: apply `f` to every element in order; a raised
worker exception is re-raised by the pool. -/
def poolMap {α β : Type} (f : α → Except PyErr β) : List α → Except PyErr (List β)
  | [] => .ok []
  | a :: rest =>
    match f a, poolMap f rest with
    | .error e, _ => .error e
    | .ok _, .error e => .error e
    | .ok b, .ok bs => .ok (b :: bs)

/-- The reduction loop of `parallel_query`: scan the pooled results with
`best_so_far = inf`, updating on strict improvement.  Comparing a `None`
result against the best float raises `TypeError`. -/
def pqScan : List (Option DVal) → ℕ → DVal → Option ℕ → Except PyErr (Option ℕ)
  | [], _, _, best => .ok best
  | none :: _, _, _, _ => .error .typeError
  | some d :: rest, i, bsf, best =>
    if olt d bsf then pqScan rest (i + 1) d (some i) else pqScan rest (i + 1) bsf best

/-- `parallel_query(q, C, w, parallel_cores, metric)`: one worker call per
library entry (`pool.map` preserves order and re-raises worker exceptions),
then the strict-improvement reduction. -/
def parallel_query (maxCores : ℤ) (q : List ℚ) (C : List (List ℚ)) (w : ℚ) (pc : ℤ)
    (m : Metric) : Except PyErr (Option ℕ) :=
  let _pool := find_pool_size maxCores pc
  match poolMap (fun c => query_worker q c w m) C with
  | .error e => .error e
  | .ok results => pqScan results 0 pyInf none

/-- The loop of `sequential_query`: each entry is compared with
`r = best_so_far`; a `None` distance raises `TypeError` at
`dist < best_so_far`; updates are strict. -/
def sqGo (q : List ℚ) (w : ℚ) (m : Metric) :
    List (List ℚ) → ℕ → DVal → Option ℕ → Except PyErr (Option ℕ)
  | [], _, _, best => .ok best
  | c :: rest, i, bsf, best =>
    match callMetricKw m q c w bsf with
    | .error e => .error e
    | .ok none => .error .typeError
    | .ok (some d) =>
      if olt d bsf then sqGo q w m rest (i + 1) d (some i)
      else sqGo q w m rest (i + 1) bsf best

/-- `sequential_query(q, C, w, metric)`. -/
def sequential_query (q : List ℚ) (C : List (List ℚ)) (w : ℚ) (m : Metric) :
    Except PyErr (Option ℕ) :=
  sqGo q w m C 0 pyInf none

/-- `query(q, C, w, metric, parallel_cores)`: parallel iff
`parallel_cores > 1`. -/
def query (maxCores : ℤ) (q : List ℚ) (C : List (List ℚ)) (w : ℚ) (m : Metric) (pc : ℤ) :
    Except PyErr (Option ℕ) :=
  if pc > 1 then parallel_query maxCores q C w pc m else sequential_query q C w m

/-- A sum of distance-valued floats, as accumulated by the pairwise-argmin
paths: `inf`-absorbing (`none`), with a finite sum represented by the
multiset of nonzero radicands (the real value is `Σ √q`; a `√0 = 0` term
is dropped, it adds nothing).  Python's float order on such sums is not
shallowly embeddable, so the reductions below take the order as a
parameter. -/
abbrev TDist := Option (Multiset ℚ)

/-- Addition of distance sums (`inf` absorbs). -/
def tadd (a b : TDist) : TDist :=
  match a, b with
  | some s, some t => some (s + t)
  | _, _ => none

/-- A single distance-valued float as a distance sum. -/
def ofDist : DVal → TDist
  | none => none
  | some q => some (if q = 0 then 0 else {q})

/-- Python `sum(scores)` over a worker's score list, starting from the int
`0`; a `None` score raises `TypeError`. -/
def pySumDist : List (Option DVal) → TDist → Except PyErr TDist
  | [], acc => .ok acc
  | none :: _, _ => .error .typeError
  | some d :: rest, acc => pySumDist rest (tadd acc (ofDist d))

/-- The scan of `np.argmin`: first occurrence of the minimum, via strict
improvement over the running current value, parameterised by the float
order `lt`. -/
def argminGo (lt : TDist → TDist → Bool) : List TDist → TDist → ℕ → ℕ → ℕ
  | [], _, best, _ => best
  | t :: rest, cur, best, i =>
    if lt t cur then argminGo lt rest t i (i + 1) else argminGo lt rest cur best (i + 1)

/-- `np.argmin(results)`: `ValueError` on an empty sequence, else the first
index of the minimum. -/
def npArgmin (lt : TDist → TDist → Bool) : List TDist → Except PyErr ℕ
  | [] => .error .valueError
  | t :: rest => .ok (argminGo lt rest t 0 1)

/-- `sequential_score(q, C, metric, w)`: the exact (unbounded) distance of
`q` to every entry, in order. -/
def seqScoreList (q : List ℚ) (C : List (List ℚ)) (m : Metric) (w : ℚ) :
    Except PyErr (List (Option DVal)) :=
  poolMap (fun c => callMetricKw m q c w pyInf) C

/-- `pairwise_argmin_worker((q, C, metric, w)) = sum(sequential_score(q, C,
metric, w))`. -/
def pairWorker (q : List ℚ) (C : List (List ℚ)) (m : Metric) (w : ℚ) : Except PyErr TDist :=
  match seqScoreList q C m w with
  | .error e => .error e
  | .ok scores => pySumDist scores (some 0)

/-- `parallel_pairwise_argmin(C, parallel_cores, w, metric)`: one worker
total per row, reduced by `np.argmin`. -/
def parallel_pairwise_argmin (lt : TDist → TDist → Bool) (maxCores : ℤ) (C : List (List ℚ))
    (pc : ℤ) (w : ℚ) (m : Metric) : Except PyErr ℕ :=
  let _pool := find_pool_size maxCores pc
  match poolMap (fun q => pairWorker q C m w) C with
  | .error e => .error e
  | .ok results => npArgmin lt results

/-- The inner loop of `sequential_pairwise_argmin`: sum
`metric(C[i], C[j])` over `j ≠ i` (`total_distance += None` would raise
`TypeError`). -/
def pairTotal (C : List (List ℚ)) (w : ℚ) (m : Metric) (i : ℕ) :
    List ℕ → TDist → Except PyErr TDist
  | [], acc => .ok acc
  | j :: js, acc =>
    if i = j then pairTotal C w m i js acc
    else
      match callMetricKw m (C.getD i []) (C.getD j []) w pyInf with
      | .error e => .error e
      | .ok none => .error .typeError
      | .ok (some d) => pairTotal C w m i js (tadd acc (ofDist d))

/-- The outer loop of `sequential_pairwise_argmin`: track the index of the
strictly smallest row total, starting from `min_distance = inf`. -/
def spGo (lt : TDist → TDist → Bool) (C : List (List ℚ)) (w : ℚ) (m : Metric) :
    List ℕ → TDist → Option ℕ → Except PyErr (Option ℕ)
  | [], _, best => .ok best
  | i :: rest, minD, best =>
    match pairTotal C w m i (List.range C.length) (some 0) with
    | .error e => .error e
    | .ok t =>
      if lt t minD then spGo lt C w m rest t (some i) else spGo lt C w m rest minD best

/-- `sequential_pairwise_argmin(C, metric, w)`. -/
def sequential_pairwise_argmin (lt : TDist → TDist → Bool) (C : List (List ℚ)) (m : Metric)
    (w : ℚ) : Except PyErr (Option ℕ) :=
  spGo lt C w m (List.range C.length) none none

/-- `pairwise_argmin(C, parallel_cores, w, metric)`: parallel for
`parallel_cores > 1`, sequential for `= 1`, else
`ValueError('Parallel cores should be a positive integer.')`. -/
def pairwise_argmin (lt : TDist → TDist → Bool) (maxCores : ℤ) (C : List (List ℚ)) (pc : ℤ)
    (w : ℚ) (m : Metric) : Except PyErr (Option ℕ) :=
  if pc > 1 then (parallel_pairwise_argmin lt maxCores C pc w m).map some
  else if pc = 1 then sequential_pairwise_argmin lt C m w
  else .error .valueError

/-- Exact square root of a rational, when it exists. -/
def ratSqrtQ (q : ℚ) : Option ℚ :=
  if 0 ≤ q ∧ Nat.sqrt q.num.toNat ^ 2 = q.num.toNat ∧ Nat.sqrt q.den ^ 2 = q.den then
    some ((Nat.sqrt q.num.toNat : ℚ) / (Nat.sqrt q.den : ℚ))
  else none

/-- Exact value of `Σ √q` over a multiset of radicands, when every radicand
has a rational root. -/
def sumSqrtExact (s : Multiset ℚ) : Option ℚ :=
  if none ∈ s.map ratSqrtQ then none
  else some ((s.map (fun q => (ratSqrtQ q).getD 0)).sum)

/-- A concrete instantiation of the float order on distance sums: exact on
`inf` comparisons and on sums all of whose radicands are rational squares
(every comparison actually performed at the concrete inputs in this file is
of that shape). -/
def ltTExact : TDist → TDist → Bool
  | none, _ => false
  | some _, none => true
  | some s, some t =>
    match sumSqrtExact s, sumSqrtExact t with
    | some a, some b => decide (a < b)
    | _, _ => false

/-- The exact (bound-free) distances of a query against a library. -/
def distList (q : List ℚ) (C : List (List ℚ)) (w : ℚ) : List DVal :=
  C.map (fun c => dtw q c w pyInf)

/-- Minimum of a distance list (`inf` if empty). -/
def minDist (l : List DVal) : DVal := l.foldr omin pyInf

/-- The first (lowest) index attaining the minimum of a distance list. -/
def firstArgmin (l : List DVal) : Option ℕ := l.findIdx? (fun v => decide (v = minDist l))

/-- Specification-level strict-improvement scan over exact distances. -/
def bestScan : List DVal → ℕ → DVal → Option ℕ → Option ℕ
  | [], _, _, best => best
  | d :: rest, i, bsf, best =>
    if olt d bsf then bestScan rest (i + 1) d (some i) else bestScan rest (i + 1) bsf best

/-- Folding a list of distance values into a distance sum (the value of
Python `sum`, starting from `acc`). -/
def tsumFold (l : List DVal) (acc : TDist) : TDist :=
  l.foldl (fun a d => tadd a (ofDist d)) acc

/-- The row total a parallel worker computes: sum over every index. -/
def pairFoldAll (D : ℕ → DVal) (js : List ℕ) (acc : TDist) : TDist :=
  js.foldl (fun a j => tadd a (ofDist (D j))) acc

/-- The row total the sequential path computes: sum skipping `j = i`. -/
def pairFoldSkip (D : ℕ → DVal) (i : ℕ) (js : List ℕ) (acc : TDist) : TDist :=
  js.foldl (fun a j => if i = j then a else tadd a (ofDist (D j))) acc

/-- Pure (error-free) version of the sequential pairwise-argmin outer scan
over a family of row totals. -/
def spGoPure (lt : TDist → TDist → Bool) (T : ℕ → TDist) :
    List ℕ → TDist → Option ℕ → Option ℕ
  | [], _, best => best
  | i :: rest, minD, best =>
    if lt (T i) minD then spGoPure lt T rest (T i) (some i)
    else spGoPure lt T rest minD best

/-- Modelled from the claim (reference computation of C3): the unbanded
full-matrix DTW cost, `cost[0,0] = 0`, other border cells `inf`,
`cost[i,j] = (I[i-1]-J[j-1])² + min(cost[i-1,j], cost[i,j-1],
cost[i-1,j-1])` for `1 ≤ i ≤ n`, `1 ≤ j ≤ m`. -/
def refCost (I J : List ℚ) : ℕ → ℕ → Cost
  | 0, 0 => some 0
  | 0, _ + 1 => none
  | _ + 1, 0 => none
  | i + 1, j + 1 =>
    if i + 1 ≤ I.length ∧ j + 1 ≤ J.length then
      oadd (some ((I.getD i 0 - J.getD j 0) ^ 2))
        (omin (omin (refCost I J i (j + 1)) (refCost I J (i + 1) j)) (refCost I J i j))
    else none
termination_by i j => (i, j)

/-! ### The represented float order: basic lemmas -/

theorem ole_refl : ∀ a : Option ℚ, ole a a
  | none => trivial
  | some p => le_refl p

theorem ole_trans : ∀ {a b c : Option ℚ}, ole a b → ole b c → ole a c
  | none, none, none, _, _ => trivial
  | none, some _, none, _, _ => trivial
  | some _, none, none, _, _ => trivial
  | some _, some _, none, _, _ => trivial
  | _, none, some _, _, h2 => absurd h2 id
  | none, some _, some _, h1, _ => absurd h1 id
  | some _, some _, some _, h1, h2 => le_trans h1 h2

theorem ole_antisymm : ∀ {a b : Option ℚ}, ole a b → ole b a → a = b
  | none, none, _, _ => rfl
  | none, some _, h1, _ => absurd h1 id
  | some _, none, _, h2 => absurd h2 id
  | some _, some _, h1, h2 => congrArg some (le_antisymm h1 h2)

theorem ole_total : ∀ a b : Option ℚ, ole a b ∨ ole b a
  | none, none => Or.inr trivial
  | none, some _ => Or.inr trivial
  | some _, none => Or.inl trivial
  | some p, some q => le_total p q

theorem not_olt : ∀ {a b : Option ℚ}, ¬olt a b ↔ ole b a
  | none, none => ⟨fun _ => trivial, fun _ h => h⟩
  | none, some _ => ⟨fun _ => trivial, fun _ h => h⟩
  | some _, none => ⟨fun h => absurd trivial h, fun h _ => h⟩
  | some _, some _ => not_lt

theorem not_ole : ∀ {a b : Option ℚ}, ¬ole a b ↔ olt b a := by
  intro a b
  rw [← not_olt, not_not]

theorem olt_irrefl : ∀ a : Option ℚ, ¬olt a a
  | none => id
  | some p => lt_irrefl p

theorem ole_of_olt {a b : Option ℚ} (h : olt a b) : ole a b := by
  rcases ole_total a b with h2 | h2
  · exact h2
  · exact absurd h (not_olt.mpr h2)

theorem olt_of_olt_of_ole {a b c : Option ℚ} (h1 : olt a b) (h2 : ole b c) : olt a c := by
  by_contra hc
  exact not_olt.mpr (ole_trans h2 (not_olt.mp hc)) h1

theorem olt_of_ole_of_olt {a b c : Option ℚ} (h1 : ole a b) (h2 : olt b c) : olt a c := by
  by_contra hc
  exact not_olt.mpr (ole_trans (not_olt.mp hc) h1) h2

theorem olt_trans {a b c : Option ℚ} (h1 : olt a b) (h2 : olt b c) : olt a c :=
  olt_of_olt_of_ole h1 (ole_of_olt h2)

theorem olt_asymm {a b : Option ℚ} (h : olt a b) : ¬olt b a :=
  not_olt.mpr (ole_of_olt h)

theorem none_not_olt : ∀ a : Option ℚ, ¬olt none a
  | none => id
  | some _ => id

theorem ole_none (a : Option ℚ) : ole a none := by
  cases a <;> trivial

theorem olt_none_iff : ∀ {a : Option ℚ}, olt a none ↔ a ≠ none
  | none => ⟨fun h => absurd h id, fun h => absurd rfl h⟩
  | some _ => ⟨fun _ h => Option.noConfusion h, fun _ => trivial⟩

theorem omin_ole_left : ∀ a b : Option ℚ, ole (omin a b) a
  | none, none => trivial
  | none, some _ => trivial
  | some _, none => ole_refl _
  | some p, some q => min_le_left p q

theorem omin_ole_right : ∀ a b : Option ℚ, ole (omin a b) b
  | none, b => ole_refl b
  | some _, none => trivial
  | some p, some q => min_le_right p q

theorem ole_omin : ∀ {a b c : Option ℚ}, ole c a → ole c b → ole c (omin a b)
  | none, b, c, _, h2 => h2
  | some _, none, c, h1, _ => h1
  | some _, some _, none, h1, _ => absurd h1 id
  | some _, some _, some _, h1, h2 => le_min h1 h2

theorem omin_eq_left {a b : Option ℚ} (h : ole a b) : omin a b = a :=
  ole_antisymm (omin_ole_left a b) (ole_omin (ole_refl a) h)

theorem omin_eq_right {a b : Option ℚ} (h : ole b a) : omin a b = b :=
  ole_antisymm (omin_ole_right a b) (ole_omin h (ole_refl b))

theorem omin_olt_iff {a b c : Option ℚ} : olt (omin a b) c ↔ olt a c ∨ olt b c := by
  constructor
  · intro h
    rcases ole_total a b with h2 | h2
    · exact Or.inl (by rwa [omin_eq_left h2] at h)
    · exact Or.inr (by rwa [omin_eq_right h2] at h)
  · rintro (h | h)
    · exact olt_of_ole_of_olt (omin_ole_left a b) h
    · exact olt_of_ole_of_olt (omin_ole_right a b) h

theorem oadd_nonneg : ∀ {a b : Option ℚ}, ole (some 0) a → ole (some 0) b →
    ole (some 0) (oadd a b)
  | none, _, _, _ => trivial
  | some _, none, _, _ => trivial
  | some p, some q, h1, h2 => add_nonneg h1 h2

theorem ole_oadd_left {c : ℚ} (hc : 0 ≤ c) : ∀ a : Option ℚ, ole a (oadd (some c) a)
  | none => trivial
  | some p => le_add_of_nonneg_left hc

theorem oadd_ne_none {c : ℚ} : ∀ {a : Option ℚ}, a ≠ none → oadd (some c) a ≠ none
  | none, h => absurd rfl h
  | some _, _ => fun hc => Option.noConfusion hc

theorem ne_none_of_ole {a b : Option ℚ} (h : ole a b) (hb : b ≠ none) : a ≠ none := by
  cases a with
  | none => cases b with
    | none => exact absurd rfl hb
    | some q => exact absurd h id
  | some p => exact fun hc => Option.noConfusion hc

/-! ### Basic facts about `pyInt` and the band width -/

theorem pyInt_eq_floor {q : ℚ} (h : 0 ≤ q) : pyInt q = ⌊q⌋ := by
  rw [Rat.floor_def, pyInt]
  exact Int.tdiv_eq_ediv (Rat.num_nonneg.mpr h) (Int.natCast_nonneg _)

theorem pyInt_nonneg {q : ℚ} (h : 0 ≤ q) : 0 ≤ pyInt q :=
  Int.tdiv_nonneg (Rat.num_nonneg.mpr h) (Int.natCast_nonneg _)

theorem pyInt_natCast (n : ℕ) : pyInt (n : ℚ) = n := by
  rw [pyInt, Rat.num_natCast, Rat.den_natCast]
  exact Int.tdiv_one _

theorem bandWidth_one (n m : ℕ) : bandWidth n m 1 = max n m := by
  rw [bandWidth, mul_one, ← Nat.cast_max, pyInt_natCast]

theorem bandWidth_nonneg (n m : ℕ) {w : ℚ} (h : 0 ≤ w) : 0 ≤ bandWidth n m w :=
  pyInt_nonneg (mul_nonneg (by positivity) h)

/-! ### Cost-matrix rows: nonnegativity and row-minimum monotonicity -/

theorem rowCell_nonneg {prev : ℕ → Cost} (hp : ∀ j, ole (some 0) (prev j)) (a : ℚ)
    (J : List ℚ) (lo hi : ℤ) : ∀ j, ole (some 0) (rowCell prev a J lo hi j)
  | 0 => trivial
  | j + 1 => by
    rw [rowCell]
    split
    · refine oadd_nonneg (sq_nonneg (a - J.getD j 0)) ?_
      exact ole_omin (ole_omin (hp _) (rowCell_nonneg hp a J lo hi j)) (hp _)
    · trivial

theorem rows_nonneg (I J : List ℚ) (W : ℤ) (m : ℕ) : ∀ i j, ole (some 0) (rows I J W m i j)
  | 0, j => by
    rw [rows, row0]
    split
    · exact le_refl (0 : ℚ)
    · trivial
  | i + 1, j => by
    rw [rows, nextRow]
    exact rowCell_nonneg (rows_nonneg I J W m i) _ _ _ _ j

theorem rowMin_le (row : ℕ → Cost) : ∀ j k, k ≤ j → ole (rowMin row j) (row k)
  | 0, k, h => by
    have hk : k = 0 := Nat.le_zero.mp h
    subst hk
    rw [rowMin]
    exact ole_refl _
  | j + 1, k, h => by
    rw [rowMin]
    by_cases hk : k = j + 1
    · subst hk
      exact omin_ole_right _ _
    · exact ole_trans (omin_ole_left _ _) (rowMin_le row j k (by omega))

theorem le_rowMin {row : ℕ → Cost} {c : Cost} :
    ∀ j, (∀ k, k ≤ j → ole c (row k)) → ole c (rowMin row j)
  | 0, h => by
    rw [rowMin]
    exact h 0 le_rfl
  | j + 1, h => by
    rw [rowMin]
    exact ole_omin (le_rowMin j fun k hk => h k (by omega)) (h (j + 1) le_rfl)

theorem rowMin_le_rowCell {prev : ℕ → Cost} {m : ℕ} {a : ℚ} {J : List ℚ} {lo hi : ℤ}
    (hhi : hi ≤ (m : ℤ)) : ∀ j, ole (rowMin prev m) (rowCell prev a J lo hi j)
  | 0 => ole_none _
  | j + 1 => by
    rw [rowCell]
    split
    · rename_i hband
      have hj1 : j + 1 ≤ m := by exact_mod_cast le_trans hband.2 hhi
      refine ole_trans (ole_omin (ole_omin ?_ ?_) ?_)
        (ole_oadd_left (sq_nonneg (a - J.getD j 0)) _)
      · exact rowMin_le prev m (j + 1) hj1
      · exact rowMin_le_rowCell hhi j
      · exact rowMin_le prev m j (by omega)
    · exact ole_none _

theorem rowMin_rows_succ (I J : List ℚ) (W : ℤ) (m : ℕ) (i : ℕ) :
    ole (rowMin (rows I J W m i) m) (rowMin (rows I J W m (i + 1)) m) := by
  refine le_rowMin m fun k _ => ?_
  rw [rows, nextRow]
  exact rowMin_le_rowCell (min_le_left _ _) k

theorem rowMin_rows_mono (I J : List ℚ) (W : ℤ) (m : ℕ) {i k : ℕ} (h : i ≤ k) :
    ole (rowMin (rows I J W m i) m) (rowMin (rows I J W m k) m) := by
  induction k, h using Nat.le_induction with
  | base => exact ole_refl _
  | succ k _ ih => exact ole_trans ih (rowMin_rows_succ I J W m k)

theorem rowMin_le_final (I J : List ℚ) (W : ℤ) (m : ℕ) {i k : ℕ} (hik : i ≤ k) :
    ole (rowMin (rows I J W m i) m) (rows I J W m k m) :=
  ole_trans (rowMin_rows_mono I J W m hik) (rowMin_le _ m m le_rfl)

/-! ### The row loop: abandonment dichotomy -/

theorem dtwLoop_result (I J : List ℚ) (W : ℤ) (m : ℕ) (rsq : Cost) :
    ∀ (d k : ℕ), I.length - k = d → k ≤ I.length →
      dtwLoop J W m rsq (I.drop k) k (rows I J W m k) = rows I J W m I.length m ∨
        (dtwLoop J W m rsq (I.drop k) k (rows I J W m k) = none ∧
          olt rsq (rows I J W m I.length m))
  | 0, k, hd, hk => by
    have hk2 : k = I.length := by omega
    subst hk2
    rw [List.drop_length, dtwLoop]
    exact Or.inl rfl
  | d + 1, k, hd, hk => by
    have hklt : k < I.length := by omega
    rw [List.drop_eq_getElem_cons hklt]
    simp only [dtwLoop]
    have hrow : nextRow J W m (rows I J W m k) k I[k] = rows I J W m (k + 1) := by
      rw [rows, List.getD_eq_getElem I 0 hklt]
    rw [hrow]
    by_cases h1 : olt rsq (rowMin (rows I J W m (k + 1)) m)
    · rw [if_pos h1]
      by_cases hemp : (I.drop (k + 1)).isEmpty
      · have hlen : I.length ≤ k + 1 := List.drop_eq_nil_iff.mp (List.isEmpty_iff.mp hemp)
        have hkeq : k + 1 = I.length := by omega
        rw [hemp]
        simp only [if_true]
        rw [hkeq]
        exact Or.inl rfl
      · rw [if_neg ?_]
        · exact Or.inr ⟨rfl, olt_of_olt_of_ole h1 (rowMin_le_final I J W m (by omega))⟩
        · simpa using hemp
    · rw [if_neg h1]
      exact dtwLoop_result I J W m rsq d (k + 1) (by omega) (by omega)

theorem dtw_cases (I J : List ℚ) (w : ℚ) (r : DVal) :
    dtw I J w r = rows I J (bandWidth I.length J.length w) J.length I.length J.length ∨
      (dtw I J w r = none ∧
        olt (pySq r) (rows I J (bandWidth I.length J.length w) J.length I.length J.length)) := by
  have h := dtwLoop_result I J (bandWidth I.length J.length w) J.length (pySq r)
    I.length 0 (by omega) (by omega)
  simpa [dtw, dtw_matrix_last, pySqrt, rows] using h

theorem dtw_top_eq (I J : List ℚ) (w : ℚ) :
    dtw I J w pyInf = rows I J (bandWidth I.length J.length w) J.length I.length J.length := by
  rcases dtw_cases I J w pyInf with h | ⟨_, hlt⟩
  · exact h
  · exact absurd hlt (none_not_olt _)

theorem dtw_decision (I J : List ℚ) (w : ℚ) (bsf : DVal) :
    (olt (dtw I J w bsf) bsf ↔ olt (dtw I J w pyInf) bsf) ∧
      (olt (dtw I J w pyInf) bsf → dtw I J w bsf = dtw I J w pyInf) := by
  rw [dtw_top_eq]
  rcases dtw_cases I J w bsf with h | ⟨h, hlt⟩
  · rw [h]
    exact ⟨Iff.rfl, fun _ => rfl⟩
  · rw [h]
    have hlt2 : olt bsf (rows I J (bandWidth I.length J.length w) J.length
        I.length J.length) := hlt
    exact ⟨iff_of_false (none_not_olt _) (olt_asymm hlt2),
      fun hR => absurd hR (olt_asymm hlt2)⟩

/-! ### Query paths over exact distances -/

theorem poolMap_ok {α β : Type} (f : α → Except PyErr β) (g : α → β)
    (h : ∀ a, f a = .ok (g a)) : ∀ l, poolMap f l = .ok (l.map g)
  | [] => by rw [poolMap, List.map_nil]
  | a :: rest => by
    rw [poolMap, h a, poolMap_ok f g h rest, List.map_cons]

theorem sqGo_dtw (q : List ℚ) (w : ℚ) :
    ∀ (cs : List (List ℚ)) (i : ℕ) (bsf : DVal) (best : Option ℕ),
      sqGo q w .dtw cs i bsf best =
        .ok (bestScan (cs.map (fun c => dtw q c w pyInf)) i bsf best)
  | [], i, bsf, best => by rw [sqGo, List.map_nil, bestScan]
  | c :: rest, i, bsf, best => by
    simp only [sqGo, callMetricKw, List.map_cons, bestScan]
    by_cases h : olt (dtw q c w pyInf) bsf
    · have hlt : olt (dtw q c w bsf) bsf := (dtw_decision q c w bsf).1.mpr h
      rw [if_pos hlt, if_pos h, (dtw_decision q c w bsf).2 h,
        sqGo_dtw q w rest (i + 1) (dtw q c w pyInf) (some i)]
    · have hlt : ¬olt (dtw q c w bsf) bsf := fun hc => h ((dtw_decision q c w bsf).1.mp hc)
      rw [if_neg hlt, if_neg h, sqGo_dtw q w rest (i + 1) bsf best]

theorem pqScan_map_some :
    ∀ (l : List DVal) (i : ℕ) (bsf : DVal) (best : Option ℕ),
      pqScan (l.map some) i bsf best = .ok (bestScan l i bsf best)
  | [], _, _, _ => by rw [List.map_nil, pqScan, bestScan]
  | d :: rest, i, bsf, best => by
    rw [List.map_cons, pqScan, bestScan]
    by_cases h : olt d bsf
    · rw [if_pos h, if_pos h, pqScan_map_some rest]
    · rw [if_neg h, if_neg h, pqScan_map_some rest]

theorem parallel_query_dtw (maxCores : ℤ) (q : List ℚ) (C : List (List ℚ)) (w : ℚ)
    (pc : ℤ) :
    parallel_query maxCores q C w pc .dtw =
      .ok (bestScan (C.map (fun c => dtw q c w pyInf)) 0 pyInf none) := by
  have h1 : poolMap (fun c => query_worker q c w .dtw) C
      = .ok (C.map (fun c => some (dtw q c w pyInf))) :=
    poolMap_ok _ _ (fun c => rfl) C
  have h2 : C.map (fun c => some (dtw q c w pyInf))
      = (C.map (fun c => dtw q c w pyInf)).map some := by
    rw [List.map_map]
    rfl
  simp only [parallel_query, h1, h2]
  exact pqScan_map_some _ 0 pyInf none

theorem sequential_query_dtw (q : List ℚ) (C : List (List ℚ)) (w : ℚ) :
    sequential_query q C w .dtw =
      .ok (bestScan (C.map (fun c => dtw q c w pyInf)) 0 pyInf none) := by
  rw [sequential_query, sqGo_dtw]

theorem query_dtw_core_agnostic (maxCores : ℤ) (q : List ℚ) (C : List (List ℚ)) (w : ℚ)
    {pc : ℤ} (h : 1 < pc) :
    query maxCores q C w .dtw pc = query maxCores q C w .dtw 1 := by
  rw [query, query, if_pos h, if_neg (by omega), parallel_query_dtw, sequential_query_dtw]

/-! ### The strict-improvement scan returns the first argmin -/

theorem minDist_cons (d : DVal) (rest : List DVal) :
    minDist (d :: rest) = omin d (minDist rest) := rfl

theorem minDist_le_of_mem {v : DVal} : ∀ {l : List DVal}, v ∈ l → ole (minDist l) v
  | d :: rest, h => by
    rcases List.mem_cons.mp h with h | h
    · rw [h, minDist_cons]
      exact omin_ole_left _ _
    · rw [minDist_cons]
      exact ole_trans (omin_ole_right _ _) (minDist_le_of_mem h)

theorem bestScan_eq :
    ∀ (D : List DVal) (i : ℕ) (bsf : DVal) (best : Option ℕ),
      bestScan D i bsf best =
        if olt (minDist D) bsf then List.findIdx? (fun v => decide (v = minDist D)) D i
        else best
  | [], i, bsf, best => by
    rw [bestScan]
    exact (if_neg (none_not_olt bsf)).symm
  | d :: rest, i, bsf, best => by
    rw [bestScan, List.findIdx?_cons]
    by_cases h2 : olt (minDist rest) d
    · have hM : minDist (d :: rest) = minDist rest := by
        rw [minDist_cons]
        exact omin_eq_right (ole_of_olt h2)
      have hne : decide (d = minDist rest) = false :=
        decide_eq_false fun he => olt_irrefl d (he ▸ h2)
      rw [hM, hne]
      by_cases h : olt d bsf
      · rw [if_pos h, bestScan_eq rest (i + 1) d (some i), if_pos h2]
        rw [if_pos (olt_trans h2 h)]
        simp only [Bool.false_eq_true, if_false]
      · rw [if_neg h, bestScan_eq rest (i + 1) bsf best]
        by_cases h3 : olt (minDist rest) bsf
        · rw [if_pos h3, if_pos h3]
          simp only [Bool.false_eq_true, if_false]
        · rw [if_neg h3, if_neg h3]
    · have hle : ole d (minDist rest) := not_olt.mp h2
      have hM : minDist (d :: rest) = d := by
        rw [minDist_cons]
        exact omin_eq_left hle
      have hd : decide (d = d) = true := decide_eq_true rfl
      rw [hM, hd]
      by_cases h : olt d bsf
      · rw [if_pos h, if_pos h, bestScan_eq rest (i + 1) d (some i), if_neg h2]
        simp only [if_true]
      · have h3 : ¬olt (minDist rest) bsf := fun hc => h (olt_of_ole_of_olt hle hc)
        rw [if_neg h, if_neg h, bestScan_eq rest (i + 1) bsf best, if_neg h3]

/-! ### Diagonal facts: identity and finiteness on equal lengths -/

theorem rows_diag_zero (A : List ℚ) (W : ℤ) (hW : 0 ≤ W) :
    ∀ i, i ≤ A.length → rows A A W A.length i i = some 0
  | 0, _ => by
    rw [rows, row0]
    simp
  | i + 1, h => by
    rw [rows, nextRow, rowCell, if_pos ?_]
    · have hc : ((A.getD i 0 - A.getD i 0) ^ 2 : ℚ) = 0 := by ring
      rw [hc]
      have hprev := rows_diag_zero A W hW i (by omega)
      have hlow : ole (some 0)
          (omin (omin (rows A A W A.length i (i + 1))
              (rowCell (rows A A W A.length i) (A.getD i 0) A (bandLo (i + 1) W)
                (bandHi A.length (i + 1) W) i))
            (rows A A W A.length i i)) :=
        ole_omin (ole_omin (rows_nonneg A A W A.length i _)
          (rowCell_nonneg (rows_nonneg A A W A.length i) _ _ _ _ i))
          (rows_nonneg A A W A.length i i)
      have hup : ole (omin (omin (rows A A W A.length i (i + 1))
              (rowCell (rows A A W A.length i) (A.getD i 0) A (bandLo (i + 1) W)
                (bandHi A.length (i + 1) W) i))
            (rows A A W A.length i i)) (some 0) := by
        refine ole_trans (omin_ole_right _ _) ?_
        rw [hprev]
        exact ole_refl _
      rw [ole_antisymm hup hlow]
      show oadd (some 0) (some 0) = some 0
      rw [oadd]
      norm_num
    · simp only [bandLo, bandHi]
      omega

theorem dtw_self_zero (A : List ℚ) {w : ℚ} (hw : 0 ≤ w) : dtw A A w pyInf = some 0 := by
  rw [dtw_top_eq]
  exact rows_diag_zero A (bandWidth A.length A.length w)
    (bandWidth_nonneg _ _ hw) A.length le_rfl

theorem rows_diag_ne_none (A B : List ℚ) (W : ℤ) (m : ℕ) (hW : 0 ≤ W) (hm : A.length ≤ m) :
    ∀ i, i ≤ A.length → rows A B W m i i ≠ none
  | 0, _ => by
    rw [rows, row0]
    simp
  | i + 1, h => by
    rw [rows, nextRow, rowCell, if_pos ?_]
    · have hne := rows_diag_ne_none A B W m hW hm i (by omega)
      have hmin : ole (omin (omin (rows A B W m i (i + 1))
              (rowCell (rows A B W m i) (A.getD i 0) B (bandLo (i + 1) W)
                (bandHi m (i + 1) W) i))
            (rows A B W m i i)) (rows A B W m i i) :=
        omin_ole_right _ _
      exact oadd_ne_none (ne_none_of_ole hmin hne)
    · simp only [bandLo, bandHi]
      omega

theorem dtw_ne_none (A B : List ℚ) (w : ℚ) (hw : 0 ≤ w) (hlen : A.length = B.length) :
    dtw A B w pyInf ≠ none := by
  rw [dtw_top_eq]
  obtain ⟨n, hA, hB⟩ : ∃ n, A.length = n ∧ B.length = n := ⟨B.length, hlen, rfl⟩
  rw [hA, hB]
  exact rows_diag_ne_none A B _ n (bandWidth_nonneg _ _ hw) (le_of_eq hA) n (le_of_eq hA.symm)

/-! ### Out-of-band final cell (C10) -/

theorem rows_band_miss (I J : List ℚ) (W : ℤ) {n : ℕ} (h1 : 1 ≤ n)
    (hmiss : ¬(bandLo n W ≤ (J.length : ℤ) ∧ (J.length : ℤ) ≤ bandHi J.length n W)) :
    rows I J W J.length n J.length = none := by
  obtain ⟨k, rfl⟩ : ∃ k, n = k + 1 := ⟨n - 1, by omega⟩
  rw [rows, nextRow]
  rcases Nat.eq_zero_or_pos J.length with hJ | hJ
  · rw [hJ, rowCell]
  · obtain ⟨jm, hjm⟩ : ∃ jm, J.length = jm + 1 := ⟨J.length - 1, by omega⟩
    rw [hjm, rowCell, if_neg ?_]
    simp only [bandLo, bandHi] at hmiss ⊢
    omega

/-! ### Full band equals the unbanded reference recurrence (C3) -/

theorem rows_full_band (I J : List ℚ) :
    ∀ i, i ≤ I.length →
      ∀ j, rows I J ((max I.length J.length : ℕ) : ℤ) J.length i j = refCost I J i j := by
  intro i
  induction i with
  | zero =>
    intro _ j
    cases j with
    | zero => simp [rows, row0, refCost]
    | succ j => simp [rows, row0, refCost]
  | succ i ih =>
    intro h
    have hi : i ≤ I.length := by omega
    intro j
    induction j with
    | zero =>
      rw [rows, nextRow, rowCell]
      simp [refCost]
    | succ j ihj =>
      rw [rows, nextRow, rowCell]
      have hcond : (bandLo (i + 1) ((max I.length J.length : ℕ) : ℤ) ≤ ((j : ℕ) + 1 : ℤ) ∧
          ((j : ℕ) + 1 : ℤ) ≤ bandHi J.length (i + 1) ((max I.length J.length : ℕ) : ℤ)) ↔
          j + 1 ≤ J.length := by
        simp only [bandLo, bandHi]
        omega
      by_cases hj : j + 1 ≤ J.length
      · rw [if_pos (hcond.mpr hj)]
        have href : refCost I J (i + 1) (j + 1) =
            oadd (some ((I.getD i 0 - J.getD j 0) ^ 2))
              (omin (omin (refCost I J i (j + 1)) (refCost I J (i + 1) j))
                (refCost I J i j)) := by
          rw [refCost]
          rw [if_pos ⟨h, hj⟩]
        rw [href, ← ih hi (j + 1), ← ih hi j]
        have hcur : rowCell (rows I J ((max I.length J.length : ℕ) : ℤ) J.length i)
            (I.getD i 0) J (bandLo (i + 1) ((max I.length J.length : ℕ) : ℤ))
            (bandHi J.length (i + 1) ((max I.length J.length : ℕ) : ℤ)) j =
            refCost I J (i + 1) j := by
          rw [← ihj]
          conv_rhs => rw [rows, nextRow]
        rw [hcur, ih hi j]
      · rw [if_neg (fun hc => hj (hcond.mp hc))]
        have href : refCost I J (i + 1) (j + 1) = none := by
          rw [refCost]
          rw [if_neg (fun hc => hj hc.2)]
        rw [href]

/-! ### Euclidean kernel: fall-through and identity lemmas -/

theorem euclidLoop_none :
    ∀ (ps : List (ℚ × ℚ)) (d : ℚ) (r : DVal),
      (∀ k, 1 ≤ k → k ≤ ps.length → ¬ratGtDist (d + sumSqPairs (ps.take k)) r) →
      euclidLoop ps d r = none
  | [], _, _, _ => rfl
  | p :: rest, d, r, h => by
    simp only [euclidLoop]
    have h1 : ¬ratGtDist (d + (p.1 - p.2) ^ 2) r := by
      have h2 := h 1 le_rfl (by simp)
      simpa [sumSqPairs] using h2
    rw [if_neg h1]
    refine euclidLoop_none rest (d + (p.1 - p.2) ^ 2) r fun k hk1 hk2 => ?_
    have h3 := h (k + 1) (by omega) (by simpa using hk2)
    have h4 : d + sumSqPairs ((p :: rest).take (k + 1)) =
        d + (p.1 - p.2) ^ 2 + sumSqPairs (rest.take k) := by
      simp [sumSqPairs, List.take_succ_cons]
      ring
    rwa [h4] at h3

theorem euclidean_distance_none (I J : List ℚ) (ρ : ℚ)
    (h : ∀ k, 1 ≤ k → k ≤ (I.zip J).length →
      ¬ratGtDist (sumSqPairs ((I.zip J).take k)) (some ρ)) :
    euclidean_distance I J (some ρ) = none := by
  rw [euclidean_distance, if_pos (show olt (some ρ) pyInf from trivial)]
  exact euclidLoop_none _ 0 _ fun k h1 h2 => by simpa using h k h1 h2

theorem sumSqDiff_self : ∀ L : List ℚ, sumSqDiff L L = 0
  | [] => rfl
  | a :: rest => by
    have h := sumSqDiff_self rest
    simp only [sumSqDiff, List.zip_cons_cons, sumSqPairs, List.map_cons, List.sum_cons] at h ⊢
    rw [show ((a - a) ^ 2 : ℚ) = 0 by ring, h]
    norm_num

theorem ed_self_zero (A : List ℚ) {w : ℚ} (h0 : 0 < w) (h1 : w ≤ 1) :
    ed A A pyInf w = .ok (some (some 0)) := by
  rw [ed, ed_cached]
  by_cases hw : w ≤ 1 / 2
  · rw [if_pos hw, if_neg (by rintro ⟨ha, hb⟩; linarith),
      if_neg (by rintro ⟨ha, hb⟩; linarith)]
    have hw1 : w ≠ 1 := by
      intro he
      rw [he] at hw
      linarith
    have hpos : 0 < pyInt (1 / w) := by
      rw [pyInt_eq_floor (le_of_lt (by positivity))]
      have h2 : (1 : ℚ) ≤ 1 / w := by
        rw [le_div_iff h0]
        linarith
      have h3 : (1 : ℤ) ≤ ⌊(1 : ℚ) / w⌋ := by
        rw [Int.le_floor]
        exact_mod_cast h2
      omega
    show (if (if w ≠ 1 then pyInt (1 / w) else 1) = 0 then _ else _) = _
    rw [if_pos hw1, if_neg (by omega)]
    rw [euclidean_distance, if_neg (olt_irrefl _), sumSqDiff_self]
  · rw [if_neg hw, euclidean_distance, if_neg (olt_irrefl _), sumSqDiff_self]

/-! ### Claim C1 -/

/-- C1: the spec's early-abandon soundness invariant — "the value returned
with bound `r` is `≥` the true distance, and an abandoned call never
returns a value smaller than the true distance" — is broken by
`euclidean_distance`: called on `I = [0,0]`, `J = [3,4]` with bound
`r = 5` (= `√25`), the first loop step has `dist = 9 > 5`, so the kernel
abandons and returns `√9 = 3`, strictly smaller than the true distance
`√25 = 5`; and with a finite bound that is never exceeded
(`I = [0,0]`, `J = [1,1]`, `r = 3 = √9`) it falls through and returns
`None` instead of a number.  (The DTW kernel is sound: see `dtw_decision`.) -/
theorem c1_euclid_abandon_underreports :
    euclidean_distance [0, 0] [3, 4] (some 25) = some (some 9) ∧
      olt (some (9 : ℚ)) (some 25) ∧
      euclidean_distance [0, 0] [3, 4] pyInf = some (some 25) ∧
      euclidean_distance [0, 0] [1, 1] (some 9) = none := by
  refine ⟨?_, ?_, ?_, ?_⟩
  · norm_num [euclidean_distance, euclidLoop, ratGtDist, olt, pyInf]
  · norm_num [olt]
  · norm_num [euclidean_distance, euclidLoop, ratGtDist, olt, pyInf, sumSqDiff, sumSqPairs]
  · norm_num [euclidean_distance, euclidLoop, ratGtDist, olt, pyInf]

/-! ### Claim C3 -/

/-- C3: at full band (`w = 1.0`) and an infinite bound, `dtw` equals the
unbanded reference DTW: the square root of the full-matrix recurrence value
`refCost[n, m]` (stated for all sequences, which covers the claim's
"length at most 10"). -/
theorem c3_full_band_matches_reference (I J : List ℚ) :
    dtw I J 1 pyInf = pySqrt (refCost I J I.length J.length) := by
  rw [dtw_top_eq, bandWidth_one, pySqrt]
  exact rows_full_band I J I.length le_rfl J.length

/-! ### Claim C5 -/

/-- C5 counterexample: on an empty library neither `query` nor sequential
`pairwise_argmin` fails with an `EmptyLibraryError` (no such error exists
in the code); both return Python `None` as an ordinary value. -/
theorem c5_counterexample :
    query 4 [0] [] 1 .dtw 1 = .ok none ∧
      pairwise_argmin ltTExact 4 [] 1 1 .dtw = .ok none := by
  constructor
  · rfl
  · norm_num [pairwise_argmin, sequential_pairwise_argmin, spGo, List.range]

/-- C5 (amended): on an empty library, `query` returns `None` for every
worker count (both dispatch paths), and `pairwise_argmin` with
`parallel_cores = 1` returns `None`; no `EmptyLibraryError` is raised. -/
theorem c5_empty_library_returns_none :
    (∀ (maxCores : ℤ) (q : List ℚ) (w : ℚ) (m : Metric) (pc : ℤ),
      query maxCores q [] w m pc = .ok none) ∧
      (∀ (lt : TDist → TDist → Bool) (maxCores : ℤ) (w : ℚ) (m : Metric),
        pairwise_argmin lt maxCores [] 1 w m = .ok none) := by
  constructor
  · intro maxCores q w m pc
    by_cases h : pc > 1
    · rw [query, if_pos h]
      rfl
    · rw [query, if_neg h]
      rfl
  · intro lt maxCores w m
    rw [pairwise_argmin, if_neg (by omega), if_pos rfl]
    rfl

/-! ### Claim C6 -/

/-- C6 counterexample: `dtw` invoked with window `w = 0` does not fail with
a `ConfigurationError` (no such error exists in the code); it computes a
distance (here the diagonal cost `√1 = 1`). -/
theorem c6_counterexample : dtw [2] [3] 0 pyInf = some 1 := by
  norm_num [dtw, dtw_matrix_last, dtwLoop, pySq, pySqrt, bandWidth, pyInt, Int.tdiv,
    nextRow, rowCell, rowMin, row0, bandLo, bandHi, olt, oadd, omin, pyInf]

/-- C6 (amended): there is no window validation.  `w = 0` and `w = 1.5`
raise no `ConfigurationError`: `dtw` computes a distance for both; `ed`
computes a distance for `w = 1.5` and fails with `ZeroDivisionError`
(from `int(1/w)`) for `w = 0`. -/
theorem c6_no_window_validation :
    dtw [1] [1] 0 pyInf = some 0 ∧
      dtw [1] [1] (3 / 2) pyInf = some 0 ∧
      ed [1] [2] pyInf (3 / 2) = .ok (some (some 1)) ∧
      ed [1] [2] pyInf 0 = .error .zeroDivisionError := by
  refine ⟨?_, ?_, ?_, ?_⟩
  · norm_num [dtw, dtw_matrix_last, dtwLoop, pySq, pySqrt, bandWidth, pyInt, Int.tdiv,
      nextRow, rowCell, rowMin, row0, bandLo, bandHi, olt, oadd, omin, pyInf]
  · norm_num [dtw, dtw_matrix_last, dtwLoop, pySq, pySqrt, bandWidth, pyInt, Int.tdiv,
      nextRow, rowCell, rowMin, row0, bandLo, bandHi, olt, oadd, omin, pyInf]
  · norm_num [ed, ed_cached, euclidean_distance, olt, pyInf, sumSqDiff, sumSqPairs]
  · norm_num [ed, ed_cached]

/-! ### Claim C7 -/

/-- C7 counterexample: `query` with `parallel_cores = 0` does not fail with
a `ConfigurationError`; it silently runs the sequential path and returns an
index. -/
theorem c7_counterexample : query 8 [0] [[0]] 1 .dtw 0 = .ok (some 0) := by
  norm_num [query, sequential_query, sqGo, callMetricKw, dtw, dtw_matrix_last, dtwLoop,
    pySq, pySqrt, bandWidth, pyInt, Int.tdiv, nextRow, rowCell, rowMin, row0, bandLo,
    bandHi, olt, oadd, omin, pyInf]

/-- C7 (amended): a worker count above the available cores is clamped to
`max 1 (available - 1)` (with a printed, non-fatal warning); a worker count
of 0 or a negative number is not a `ConfigurationError`: `query` silently
falls back to the sequential path, while `pairwise_argmin` raises
`ValueError`. -/
theorem c7_worker_count_policy :
    (∀ pc maxCores : ℤ, maxCores < pc →
      find_pool_size maxCores pc = max 1 (maxCores - 1)) ∧
      (∀ (maxCores : ℤ) (q : List ℚ) (C : List (List ℚ)) (w : ℚ) (m : Metric) (pc : ℤ),
        pc ≤ 1 → query maxCores q C w m pc = sequential_query q C w m) ∧
      (∀ (lt : TDist → TDist → Bool) (maxCores : ℤ) (C : List (List ℚ)) (w : ℚ)
        (m : Metric) (pc : ℤ), pc < 1 →
        pairwise_argmin lt maxCores C pc w m = .error .valueError) := by
  refine ⟨?_, ?_, ?_⟩
  · intro pc maxCores h
    rw [find_pool_size, if_pos (by omega)]
  · intro maxCores q C w m pc h
    rw [query, if_neg (by omega)]
  · intro lt maxCores C w m pc h
    rw [pairwise_argmin, if_neg (by omega), if_neg (by omega)]

/-- C7 witness: the policy evaluated at concrete inputs. -/
theorem c7_witness :
    find_pool_size 8 10 = 7 ∧
      query 4 [0] [[0]] 1 .dtw 1 = sequential_query [0] [[0]] 1 .dtw ∧
      pairwise_argmin ltTExact 4 [[0]] 0 1 .dtw = .error .valueError := by
  refine ⟨?_, ?_, ?_⟩
  · rw [c7_worker_count_policy.1 10 8 (by omega)]
    norm_num
  · exact c7_worker_count_policy.2.1 4 [0] [[0]] 1 .dtw 1 le_rfl
  · exact c7_worker_count_policy.2.2 ltTExact 4 [[0]] 1 .dtw 0 (by omega)

/-! ### Claim C8 -/

/-- C8: identity — for every non-empty sequence `A` and window
`w ∈ (0, 1]`, both `dtw(A, A)` and `ed(A, A)` with an infinite bound
return `0` (`some 0` represents `√0 = 0`). -/
theorem c8_identity_zero (A : List ℚ) (w : ℚ) (hA : A ≠ []) (h0 : 0 < w) (h1 : w ≤ 1) :
    dtw A A w pyInf = some 0 ∧ ed A A pyInf w = .ok (some (some 0)) :=
  ⟨dtw_self_zero A (le_of_lt h0), ed_self_zero A h0 h1⟩

/-- C8 witness: identity at `A = [2]`, `w = 1` (and at the decimating
window `w = 1/2`). -/
theorem c8_witness :
    (([2] : List ℚ) ≠ [] ∧ (0 : ℚ) < 1 ∧ (1 : ℚ) ≤ 1 ∧
      (dtw [2] [2] 1 pyInf = some 0 ∧ ed [2] [2] pyInf 1 = .ok (some (some 0)))) ∧
      (dtw [2] [2] (1 / 2) pyInf = some 0 ∧
        ed [2] [2] pyInf (1 / 2) = .ok (some (some 0))) :=
  ⟨⟨by simp, by norm_num, le_rfl, c8_identity_zero [2] 1 (by simp) (by norm_num) le_rfl⟩,
    c8_identity_zero [2] (1 / 2) (by simp) (by norm_num) (by norm_num)⟩

/-! ### Claim C10 -/

/-- C10: when the length gap exceeds the band width —
`|len I - len J| > ⌊max(len I, len J) · w⌋` — the final cost-matrix cell
lies outside the band, is never written, and keeps its `inf`
initialization, so `dtw` returns `inf` (`none`), with no error. -/
theorem c10_band_mismatch_infinite (I J : List ℚ) (w : ℚ) (hI : I ≠ []) (hJ : J ≠ [])
    (h0 : 0 < w) (h1 : w ≤ 1)
    (hgap : ⌊(max I.length J.length : ℚ) * w⌋ < |(I.length : ℤ) - (J.length : ℤ)|) :
    dtw I J w pyInf = none := by
  rw [dtw_top_eq]
  have hW : bandWidth I.length J.length w = ⌊(max I.length J.length : ℚ) * w⌋ :=
    pyInt_eq_floor (mul_nonneg (by positivity) (le_of_lt h0))
  refine rows_band_miss I J _ (List.length_pos.mpr hI) ?_
  rw [hW]
  simp only [bandLo, bandHi]
  rcases abs_cases ((I.length : ℤ) - (J.length : ℤ)) with ⟨heq, _⟩ | ⟨heq, _⟩ <;>
    (rw [heq] at hgap; omega)

/-- C10 witness: `I = [0]`, `J = [0,0,0,0,0]`, `w = 1/2`:
`|1 - 5| = 4 > 2 = ⌊5/2⌋`, and `dtw` returns `inf`. -/
theorem c10_witness :
    ⌊(max ([0] : List ℚ).length ([0, 0, 0, 0, 0] : List ℚ).length : ℚ) * (1 / 2)⌋ <
        |((([0] : List ℚ).length : ℤ)) - ((([0, 0, 0, 0, 0] : List ℚ).length : ℤ))| ∧
      dtw [0] [0, 0, 0, 0, 0] (1 / 2) pyInf = none := by
  constructor
  · norm_num
  · exact c10_band_mismatch_infinite [0] [0, 0, 0, 0, 0] (1 / 2) (by simp) (by simp)
      (by norm_num) (by norm_num) (by norm_num)

/-! ### Claim C4 -/

/-- C4 counterexample: a singleton library whose only (dtw) distance is
`inf` — the minimum over the library is attained at index 0, yet the
sequential query returns `None`, not index 0 (and for metric
`'euclidean'` a query can fail with `TypeError`, see C9). -/
theorem c4_counterexample :
    sequential_query [0] [[0, 0, 0, 0, 0]] (1 / 2) .dtw = .ok none ∧
      dtw [0] [0, 0, 0, 0, 0] (1 / 2) pyInf = none := by
  constructor
  · norm_num [sequential_query, sqGo, callMetricKw, dtw, dtw_matrix_last, dtwLoop, pySq,
      pySqrt, bandWidth, pyInt, Int.tdiv, nextRow, rowCell, rowMin, row0, bandLo, bandHi,
      olt, oadd, omin, pyInf]
  · norm_num [dtw, dtw_matrix_last, dtwLoop, pySq, pySqrt, bandWidth, pyInt, Int.tdiv,
      nextRow, rowCell, rowMin, row0, bandLo, bandHi, olt, oadd, omin, pyInf]

/-- C4 (amended): for metric `'dtw'`, the sequential query iterates in
index order, passes the current best as the early-abandon bound, updates
strictly, and — provided at least one entry has a finite distance —
returns the first (lowest) index attaining the minimum distance over the
library (when every distance is `inf` it returns `None` instead). -/
theorem c4_sequential_query_first_argmin (q : List ℚ) (C : List (List ℚ)) (w : ℚ)
    (h : ∃ c ∈ C, dtw q c w pyInf ≠ none) :
    sequential_query q C w .dtw = .ok (firstArgmin (distList q C w)) := by
  rw [sequential_query_dtw]
  simp only [distList]
  congr 1
  rw [bestScan_eq]
  obtain ⟨c, hc, hfin⟩ := h
  have hv : dtw q c w pyInf ∈ C.map (fun c => dtw q c w pyInf) :=
    List.mem_map_of_mem _ hc
  have hlt : olt (minDist (C.map (fun c => dtw q c w pyInf))) pyInf :=
    olt_of_ole_of_olt (minDist_le_of_mem hv) (olt_none_iff.mpr hfin)
  rw [if_pos hlt, firstArgmin]

/-- C4 witness: `q = [0]`, `C = [[1], [0]]`, `w = 1`: distances are
`[1, 0]`, the minimum is attained first at index 1, and the sequential
query returns index 1. -/
theorem c4_witness :
    sequential_query [0] [[1], [0]] 1 .dtw = .ok (firstArgmin (distList [0] [[1], [0]] 1)) ∧
      firstArgmin (distList [0] [[1], [0]] 1) = some 1 := by
  constructor
  · refine c4_sequential_query_first_argmin [0] [[1], [0]] 1 ⟨[0], by simp, ?_⟩
    have hval : dtw [0] [0] 1 pyInf = some 0 := by
      norm_num [dtw, dtw_matrix_last, dtwLoop, pySq, pySqrt, bandWidth, pyInt, Int.tdiv,
        nextRow, rowCell, rowMin, row0, bandLo, bandHi, olt, oadd, omin, pyInf]
    rw [hval]
    simp
  · norm_num [firstArgmin, distList, minDist, List.findIdx?_cons, List.findIdx?_nil,
      dtw, dtw_matrix_last, dtwLoop, pySq, pySqrt, bandWidth, pyInt, Int.tdiv,
      nextRow, rowCell, rowMin, row0, bandLo, bandHi, olt, oadd, omin, pyInf]

/-! ### Claim C9 -/

/-- C9: with a finite bound whose value the accumulated squared sums never
exceed, `euclidean_distance` falls through its loop and returns Python
`None`; consequently a sequential `'euclidean'` query whose second
comparison completes without exceeding the bound set by the first entry
fails with `TypeError` (comparing `None` with the best float) instead of
returning an index. -/
theorem c9_euclid_none_typeerror :
    (∀ (I J : List ℚ) (ρ : ℚ), I.length = J.length →
      (∀ k, 1 ≤ k → k ≤ (I.zip J).length →
        ¬ratGtDist (sumSqPairs ((I.zip J).take k)) (some ρ)) →
      euclidean_distance I J (some ρ) = none) ∧
      (∀ (q c0 c1 : List ℚ) (rest : List (List ℚ)) (w : ℚ), 1 / 2 < w →
        q.length = c0.length → q.length = c1.length →
        (∀ k, 1 ≤ k → k ≤ (q.zip c1).length →
          ¬ratGtDist (sumSqPairs ((q.zip c1).take k)) (some (sumSqDiff q c0))) →
        sequential_query q (c0 :: c1 :: rest) w .euclidean = .error .typeError) := by
  constructor
  · intro I J ρ _ h
    exact euclidean_distance_none I J ρ h
  · intro q c0 c1 rest w hw _ _ h
    rw [sequential_query, sqGo]
    have hc0 : callMetricKw .euclidean q c0 w pyInf =
        .ok (some (some (sumSqDiff q c0))) := by
      rw [callMetricKw, ed, ed_cached, if_neg (by linarith), euclidean_distance,
        if_neg (olt_irrefl _)]
    simp only [hc0]
    rw [if_pos (show olt (some (sumSqDiff q c0)) pyInf from trivial), sqGo]
    have hc1 : callMetricKw .euclidean q c1 w (some (sumSqDiff q c0)) = .ok none := by
      rw [callMetricKw, ed, ed_cached, if_neg (by linarith)]
      rw [euclidean_distance_none q c1 _ h]
    simp only [hc1]

/-- C9 witness: `q = [0,0]`, library `[[5,5], [1,1]]`, `w = 1`: the first
entry sets the bound `√50`; against the second entry the partial sums `1`
and `2` never exceed it, the kernel returns `None`, and the query raises
`TypeError`. -/
theorem c9_witness :
    euclidean_distance [0, 0] [1, 1] (some (sumSqDiff [0, 0] [5, 5])) = none ∧
      sequential_query [0, 0] [[5, 5], [1, 1]] 1 .euclidean = .error .typeError := by
  constructor
  · refine c9_euclid_none_typeerror.1 [0, 0] [1, 1] _ rfl ?_
    intro k h1 h2
    simp at h2
    interval_cases k <;> norm_num [sumSqDiff, sumSqPairs, ratGtDist, List.zip]
  · refine c9_euclid_none_typeerror.2 [0, 0] [5, 5] [1, 1] [] 1 (by norm_num) rfl rfl ?_
    intro k h1 h2
    simp at h2
    interval_cases k <;> norm_num [sumSqDiff, sumSqPairs, ratGtDist, List.zip]

/-! ### Pairwise argmin: parallel and sequential totals coincide (C2) -/

theorem tadd_zero : ∀ a : TDist, tadd a (some 0) = a
  | none => rfl
  | some s => by
    rw [tadd]
    simp

theorem pySumDist_somes : ∀ (l : List DVal) (acc : TDist),
    pySumDist (l.map some) acc = .ok (tsumFold l acc)
  | [], _ => rfl
  | d :: rest, acc => by
    rw [List.map_cons, pySumDist, pySumDist_somes rest]
    rfl

theorem pairWorker_dtw (q : List ℚ) (C : List (List ℚ)) (w : ℚ) :
    pairWorker q C .dtw w = .ok (tsumFold (C.map (fun c => dtw q c w pyInf)) (some 0)) := by
  have h1 : seqScoreList q C .dtw w = .ok ((C.map (fun c => dtw q c w pyInf)).map some) := by
    rw [seqScoreList,
      poolMap_ok (fun c => callMetricKw .dtw q c w pyInf)
        (fun c => some (dtw q c w pyInf)) (fun c => rfl) C,
      List.map_map]
    rfl
  simp only [pairWorker, h1]
  exact pySumDist_somes _ _

theorem foldl_range_getD {β : Type} (F : β → List ℚ → β) :
    ∀ (C : List (List ℚ)) (acc : β),
      C.foldl F acc = (List.range C.length).foldl (fun a j => F a (C.getD j [])) acc
  | [], _ => rfl
  | c :: rest, acc => by
    rw [List.foldl_cons, List.length_cons, List.range_succ_eq_map]
    simp only [List.foldl_cons, List.foldl_map, List.getD_cons_zero, List.getD_cons_succ,
      Nat.succ_eq_add_one]
    exact foldl_range_getD F rest (F acc c)

theorem map_eq_range_getD {β : Type} (g : List ℚ → β) :
    ∀ C : List (List ℚ), C.map g = (List.range C.length).map (fun i => g (C.getD i []))
  | [] => rfl
  | c :: rest => by
    rw [List.map_cons, List.length_cons, List.range_succ_eq_map]
    simp only [List.map_cons, List.map_map, Function.comp, List.getD_cons_zero,
      List.getD_cons_succ, Nat.succ_eq_add_one]
    congr 1
    exact map_eq_range_getD g rest

theorem tsumFold_eq_range (g : List ℚ → DVal) (C : List (List ℚ)) (acc : TDist) :
    tsumFold (C.map g) acc =
      pairFoldAll (fun j => g (C.getD j [])) (List.range C.length) acc := by
  rw [tsumFold, List.foldl_map, pairFoldAll]
  exact foldl_range_getD (fun a c => tadd a (ofDist (g c))) C acc

theorem pairFoldAll_cons (D : ℕ → DVal) (j : ℕ) (js : List ℕ) (acc : TDist) :
    pairFoldAll D (j :: js) acc = pairFoldAll D js (tadd acc (ofDist (D j))) := by
  simp only [pairFoldAll, List.foldl_cons]

theorem pairFoldSkip_cons (D : ℕ → DVal) (i j : ℕ) (js : List ℕ) (acc : TDist) :
    pairFoldSkip D i (j :: js) acc =
      if i = j then pairFoldSkip D i js acc
      else pairFoldSkip D i js (tadd acc (ofDist (D j))) := by
  simp only [pairFoldSkip, List.foldl_cons]
  by_cases hij : i = j
  · rw [if_pos hij, if_pos hij]
  · rw [if_neg hij, if_neg hij]

theorem pairFoldAll_eq_skip (D : ℕ → DVal) (i : ℕ) (h : ofDist (D i) = some 0) :
    ∀ (js : List ℕ) (acc : TDist), pairFoldAll D js acc = pairFoldSkip D i js acc
  | [], _ => rfl
  | j :: js, acc => by
    rw [pairFoldAll_cons, pairFoldSkip_cons]
    by_cases hij : i = j
    · rw [if_pos hij, ← hij, h, tadd_zero]
      exact pairFoldAll_eq_skip D i h js acc
    · rw [if_neg hij]
      exact pairFoldAll_eq_skip D i h js (tadd acc (ofDist (D j)))

theorem pairTotal_dtw (C : List (List ℚ)) (w : ℚ) (i : ℕ) :
    ∀ (js : List ℕ) (acc : TDist),
      pairTotal C w .dtw i js acc =
        .ok (pairFoldSkip (fun j => dtw (C.getD i []) (C.getD j []) w pyInf) i js acc)
  | [], _ => rfl
  | j :: js, acc => by
    rw [pairTotal, pairFoldSkip_cons]
    by_cases hij : i = j
    · rw [if_pos hij, if_pos hij]
      exact pairTotal_dtw C w i js acc
    · rw [if_neg hij, if_neg hij]
      simp only [callMetricKw]
      exact pairTotal_dtw C w i js _
  termination_by js => js.length

theorem spGo_dtw (lt : TDist → TDist → Bool) (C : List (List ℚ)) (w : ℚ) :
    ∀ (js : List ℕ) (minD : TDist) (best : Option ℕ),
      spGo lt C w .dtw js minD best =
        .ok (spGoPure lt
          (fun i => pairFoldSkip (fun j => dtw (C.getD i []) (C.getD j []) w pyInf) i
            (List.range C.length) (some 0)) js minD best)
  | [], _, _ => rfl
  | i :: js, minD, best => by
    rw [spGo]
    simp only [pairTotal_dtw C w i (List.range C.length) (some 0)]
    rw [spGoPure]
    by_cases h : lt (pairFoldSkip (fun j => dtw (C.getD i []) (C.getD j []) w pyInf) i
        (List.range C.length) (some 0)) minD
    · rw [if_pos h, if_pos h]
      exact spGo_dtw lt C w js _ _
    · rw [if_neg h, if_neg h]
      exact spGo_dtw lt C w js minD best

theorem argmin_align (lt : TDist → TDist → Bool) (T : ℕ → TDist) :
    ∀ (len s : ℕ) (cur : TDist) (bi : ℕ),
      spGoPure lt T (List.range' s len) cur (some bi) =
        some (argminGo lt ((List.range' s len).map T) cur bi s)
  | 0, _, _, _ => rfl
  | len + 1, s, cur, bi => by
    rw [List.range'_succ, spGoPure, List.map_cons, argminGo]
    by_cases h : lt (T s) cur
    · rw [if_pos h, if_pos h]
      exact argmin_align lt T len (s + 1) (T s) s
    · rw [if_neg h, if_neg h]
      exact argmin_align lt T len (s + 1) cur bi

theorem pairFoldSkip_some (D : ℕ → DVal) (i : ℕ) :
    ∀ (js : List ℕ) (s : Multiset ℚ), (∀ j ∈ js, D j ≠ none) →
      ∃ t, pairFoldSkip D i js (some s) = some t
  | [], s, _ => ⟨s, rfl⟩
  | j :: js, s, h => by
    rw [pairFoldSkip_cons]
    by_cases hij : i = j
    · rw [if_pos hij]
      exact pairFoldSkip_some D i js s fun k hk => h k (List.mem_cons_of_mem j hk)
    · rw [if_neg hij]
      obtain ⟨u, hu⟩ := Option.ne_none_iff_exists'.mp (h j (List.mem_cons_self j js))
      rw [hu, ofDist, tadd]
      exact pairFoldSkip_some D i js _ fun k hk => h k (List.mem_cons_of_mem j hk)

/-! ### Claim C2 -/

/-- C2 counterexample: parallel and sequential search do not always agree.
(1) `pairwise_argmin` on `[[0], [0,0,0,0,0]]` with `w = 1/2` (all pair
distances `inf`): parallel `np.argmin` returns index 0 while the
sequential scan returns `None`.  (2) A `'euclidean'` query on
`[[0,0,0], [1,1,1]]`: the parallel worker passes the window positionally
as the bound, a near-duplicate entry makes the kernel return `None`, and
the parallel reduction raises `TypeError`, while the sequential path
returns index 0.  (3) The same `pairwise_argmin` disagreement occurs on
the equal-length library `[[0], [0]]` with a negative window `w = -1`
(empty band, all distances `inf`).  (4) On an empty library, parallel
`pairwise_argmin` raises `ValueError` while sequential returns `None`. -/
theorem c2_counterexample :
    (pairwise_argmin ltTExact 8 [[0], [0, 0, 0, 0, 0]] 2 (1 / 2) .dtw = .ok (some 0) ∧
      pairwise_argmin ltTExact 8 [[0], [0, 0, 0, 0, 0]] 1 (1 / 2) .dtw = .ok none) ∧
      (query 8 [0, 0, 0] [[0, 0, 0], [1, 1, 1]] 1 .euclidean 2 = .error .typeError ∧
        query 8 [0, 0, 0] [[0, 0, 0], [1, 1, 1]] 1 .euclidean 1 = .ok (some 0)) ∧
      (pairwise_argmin ltTExact 8 [[0], [0]] 2 (-1) .dtw = .ok (some 0) ∧
        pairwise_argmin ltTExact 8 [[0], [0]] 1 (-1) .dtw = .ok none) ∧
      (pairwise_argmin ltTExact 8 ([] : List (List ℚ)) 2 1 .dtw = .error .valueError ∧
        pairwise_argmin ltTExact 8 ([] : List (List ℚ)) 1 1 .dtw = .ok none) := by
  refine ⟨⟨?_, ?_⟩, ⟨?_, ?_⟩, ⟨?_, ?_⟩, ⟨?_, ?_⟩⟩
  · norm_num [pairwise_argmin, Except.map, parallel_pairwise_argmin, poolMap, pairWorker,
      seqScoreList, callMetricKw, pySumDist, npArgmin, argminGo, ltTExact, tadd, ofDist,
      dtw, dtw_matrix_last, dtwLoop, pySq, pySqrt, bandWidth, pyInt, Int.tdiv,
      nextRow, rowCell, rowMin, row0, bandLo, bandHi, olt, oadd, omin, pyInf,
      find_pool_size]
  · norm_num [pairwise_argmin, sequential_pairwise_argmin, spGo, pairTotal,
      List.range_succ, callMetricKw, ltTExact, tadd, ofDist,
      dtw, dtw_matrix_last, dtwLoop, pySq, pySqrt, bandWidth, pyInt, Int.tdiv,
      nextRow, rowCell, rowMin, row0, bandLo, bandHi, olt, oadd, omin, pyInf]
  · norm_num [query, parallel_query, poolMap, query_worker, ed, ed_cached, ofRatDist,
      pyInt, Int.tdiv, euclidean_distance, euclidLoop, ratGtDist, pqScan, sumSqDiff,
      sumSqPairs, olt, pyInf, find_pool_size]
  · norm_num [query, sequential_query, sqGo, callMetricKw, ed, ed_cached,
      euclidean_distance, euclidLoop, ratGtDist, sumSqDiff, sumSqPairs, olt, pyInf]
  · have htd : Int.tdiv (-1) 1 = -1 := rfl
    norm_num [pairwise_argmin, Except.map, htd, parallel_pairwise_argmin, poolMap,
      pairWorker, seqScoreList, callMetricKw, pySumDist, npArgmin, argminGo, ltTExact,
      tadd, ofDist, dtw, dtw_matrix_last, dtwLoop, pySq, pySqrt, bandWidth, pyInt,
      nextRow, rowCell, rowMin, row0, bandLo, bandHi, olt, oadd, omin, pyInf,
      find_pool_size]
  · have htd : Int.tdiv (-1) 1 = -1 := rfl
    norm_num [pairwise_argmin, htd, sequential_pairwise_argmin, spGo, pairTotal,
      List.range_succ, callMetricKw, ltTExact, tadd, ofDist, dtw, dtw_matrix_last,
      dtwLoop, pySq, pySqrt, bandWidth, pyInt, nextRow, rowCell, rowMin, row0, bandLo,
      bandHi, olt, oadd, omin, pyInf]
  · norm_num [pairwise_argmin, Except.map, parallel_pairwise_argmin, poolMap, npArgmin,
      find_pool_size]
  · norm_num [pairwise_argmin, sequential_pairwise_argmin, spGo, List.range]

theorem npArgmin_spGoPure (lt : TDist → TDist → Bool) (T : ℕ → TDist) (n : ℕ)
    (hn : 0 < n) (s0 : Multiset ℚ) (h0 : T 0 = some s0)
    (Hlt : ∀ s, lt (some s) none = true) :
    Except.map some (npArgmin lt ((List.range n).map T)) =
      .ok (spGoPure lt T (List.range n) none none) := by
  obtain ⟨d, rfl⟩ : ∃ d, n = d + 1 := ⟨n - 1, by omega⟩
  rw [List.range_eq_range', List.range'_succ, List.map_cons, spGoPure,
    if_pos (by rw [h0]; exact Hlt s0)]
  rw [argmin_align lt T d (0 + 1) (T 0) 0]
  rfl

/-- C2 (amended): for metric `'dtw'` the parallel and sequential paths
agree.  (1) `query` with `parallel_cores > 1` returns the same index as
with `parallel_cores = 1`, for every library and window (sequential
early-abandonment is sound, `dtw_decision`).  (2) `pairwise_argmin` with
`parallel_cores > 1` returns the same index as with `parallel_cores = 1`
on every non-empty library of equal-length sequences with `w ≥ 0`, for
every float order `lt` on distance sums under which a finite sum is below
`inf`: the parallel self-distance term is exactly `0` and both reductions
pick the first minimum.  (For `'euclidean'` queries, mismatched lengths,
negative windows, or empty libraries the paths can disagree: see the
counterexample.) -/
theorem c2_parallel_matches_sequential_dtw :
    (∀ (maxCores : ℤ) (q : List ℚ) (C : List (List ℚ)) (w : ℚ) (pc : ℤ), 1 < pc →
      query maxCores q C w .dtw pc = query maxCores q C w .dtw 1) ∧
      (∀ (lt : TDist → TDist → Bool) (maxCores : ℤ) (C : List (List ℚ)) (w : ℚ)
        (pc : ℤ) (n : ℕ), (∀ s, lt (some s) none = true) → 1 < pc → C ≠ [] →
        (∀ c ∈ C, c.length = n) → 0 ≤ w →
        pairwise_argmin lt maxCores C pc w .dtw = pairwise_argmin lt maxCores C 1 w .dtw) := by
  constructor
  · intro maxCores q C w pc h
    exact query_dtw_core_agnostic maxCores q C w h
  · intro lt maxCores C w pc n Hlt hpc hC hlen hw
    have hpos : 0 < C.length := List.length_pos.mpr hC
    have hrow : C.map (fun q => tsumFold (C.map (fun c => dtw q c w pyInf)) (some 0)) =
        (List.range C.length).map
          (fun i => pairFoldSkip (fun j => dtw (C.getD i []) (C.getD j []) w pyInf) i
            (List.range C.length) (some 0)) := by
      rw [map_eq_range_getD (fun q => tsumFold (C.map (fun c => dtw q c w pyInf)) (some 0)) C]
      refine congrArg (fun f => List.map f (List.range C.length)) (funext fun i => ?_)
      show tsumFold (C.map (fun c => dtw (C.getD i []) c w pyInf)) (some 0) =
        pairFoldSkip (fun j => dtw (C.getD i []) (C.getD j []) w pyInf) i
          (List.range C.length) (some 0)
      have hzero : ofDist (dtw (C.getD i []) (C.getD i []) w pyInf) = some 0 := by
        rw [dtw_self_zero _ hw, ofDist, if_pos rfl]
      rw [tsumFold_eq_range]
      exact pairFoldAll_eq_skip (fun j => dtw (C.getD i []) (C.getD j []) w pyInf) i hzero
        (List.range C.length) (some 0)
    have hs0 : ∃ s0, pairFoldSkip
        (fun j => dtw (C.getD 0 []) (C.getD j []) w pyInf) 0
        (List.range C.length) (some 0) = some s0 := by
      refine pairFoldSkip_some _ 0 (List.range C.length) 0 ?_
      intro j hj
      have hjlt : j < C.length := List.mem_range.mp hj
      have hL0 : (C.getD 0 []).length = n := by
        rw [List.getD_eq_getElem C [] hpos]
        exact hlen _ (List.getElem_mem hpos)
      have hLj : (C.getD j []).length = n := by
        rw [List.getD_eq_getElem C [] hjlt]
        exact hlen _ (List.getElem_mem hjlt)
      exact dtw_ne_none _ _ w hw (by rw [hL0, hLj])
    obtain ⟨s0, hs0⟩ := hs0
    calc pairwise_argmin lt maxCores C pc w .dtw
        = Except.map some (npArgmin lt ((List.range C.length).map
            (fun i => pairFoldSkip (fun j => dtw (C.getD i []) (C.getD j []) w pyInf) i
              (List.range C.length) (some 0)))) := by
          rw [pairwise_argmin, if_pos hpc]
          simp only [parallel_pairwise_argmin]
          rw [poolMap_ok (fun q => pairWorker q C .dtw w)
            (fun q => tsumFold (C.map (fun c => dtw q c w pyInf)) (some 0))
            (fun q => pairWorker_dtw q C w) C, hrow]
      _ = .ok (spGoPure lt
            (fun i => pairFoldSkip (fun j => dtw (C.getD i []) (C.getD j []) w pyInf) i
              (List.range C.length) (some 0)) (List.range C.length) none none) :=
          npArgmin_spGoPure lt
            (fun i => pairFoldSkip (fun j => dtw (C.getD i []) (C.getD j []) w pyInf) i
              (List.range C.length) (some 0)) C.length hpos s0 hs0 Hlt
      _ = pairwise_argmin lt maxCores C 1 w .dtw := by
          rw [pairwise_argmin, if_neg (by omega), if_pos rfl, sequential_pairwise_argmin,
            spGo_dtw]

/-- C2 witness: the amended agreement applied at a concrete library. -/
theorem c2_witness :
    query 4 [0] [[0], [1]] 1 .dtw 2 = query 4 [0] [[0], [1]] 1 .dtw 1 ∧
      pairwise_argmin ltTExact 4 [[0], [1]] 2 1 .dtw =
        pairwise_argmin ltTExact 4 [[0], [1]] 1 1 .dtw :=
  ⟨c2_parallel_matches_sequential_dtw.1 4 [0] [[0], [1]] 1 2 (by norm_num),
    c2_parallel_matches_sequential_dtw.2 ltTExact 4 [[0], [1]] 1 2 1 (fun s => rfl)
      (by norm_num) (by simp) (by intro c hc; fin_cases hc <;> rfl) (by norm_num)⟩
